import Mathlib

/-!
Verification development for the crossgrep/softgrep source-code semantic
search tool.  The definitions below are a shallow embedding of the Rust
sources: `src/softgrep-cli/src/model.rs` (the model descriptor),
`src/softgrep-cli/src/chunker.rs` (the chunker and its tree walker) and
`src/crossgrep/src/extractor.rs` / `src/crossgrep/src/cli.rs` (the
extractor and the extractor chooser).  Machine integers (`usize`, `u32`)
are modelled as `Nat` with explicit wrapping modulo `2 ^ 64` at the spots
where the Rust code can overflow; Rust panics are modelled by an explicit
`panic` constructor of the result type, `anyhow` errors by an `err`
constructor, and a computation that can loop forever returns a
`RunBehavior`, whose `diverges` alternative records non-termination.
External collaborators (the subword tokenizer, the tree-sitter query
engine) appear as function-valued parameters.
-/

set_option maxRecDepth 40000
set_option linter.unusedVariables false

namespace Crossgrep

/-- The `usize` modulus: the Rust code runs on a 64-bit platform. -/
def USIZE : Nat := 2 ^ 64

/-- Wrapping (release-mode) subtraction on `usize` operands. -/
def usub (a b : Nat) : Nat := (a + USIZE - b % USIZE) % USIZE

/-- Outcome of running a piece of Rust code: a normal return, an
`anyhow` error (`bail!`), or a panic (`assert!`, `expect`, out-of-range
indexing and slicing, `clone_from_slice` length mismatch, ...). -/
inductive RunResult (α : Type) where
  | ok (val : α)
  | err (msg : String)
  | panic (msg : String)
deriving DecidableEq, Repr

/-- Sequencing of Rust control flow: errors and panics propagate, normal
values continue. -/
def RunResult.bind {α β : Type} : RunResult α → (α → RunResult β) → RunResult β
  | .ok a, f => f a
  | .err e, _ => .err e
  | .panic msg, _ => .panic msg

/-- The `.expect("token out of range")` on `Encoding::token_to_chars`. -/
def expectTok : Option (Nat × Nat) → RunResult (Nat × Nat)
  | some p => .ok p
  | none => .panic "token out of range"

/-- The observable behavior of running Rust code that may loop forever:
it terminates with a `RunResult`, or it diverges. -/
inductive RunBehavior (α : Type) where
  | terminates (r : RunResult α)
  | diverges
deriving DecidableEq, Repr

/-- Whether a call came back at all, and without panicking. -/
def RunBehavior.returnedCleanly {α : Type} : RunBehavior α → Bool
  | .terminates (.ok _) => true
  | .terminates (.err _) => true
  | _ => false

/-- `src/softgrep-cli/src/model.rs`: the closed set of model descriptors. -/
inductive Model where
  | codeBert
  | noop
deriving DecidableEq, Repr

/-- `Model::from_pretrained`: only `"codebert"` is recognised. -/
def Model.from_pretrained (identifier : String) : RunResult Model :=
  if identifier = "codebert" then .ok .codeBert
  else .err ("unsupported model: " ++ identifier)

/-- `Model::chunk_size` (the window length W); `usize::MAX` for `Noop`. -/
def Model.chunk_size : Model → Nat
  | .codeBert => 512
  | .noop => USIZE - 1

/-- `Model::chunk_overlap` (the overlap O). -/
def Model.chunk_overlap : Model → Nat
  | .codeBert => 64
  | .noop => 0

/-- `Model::special_tokens` (the framing reserve F). -/
def Model.special_tokens : Model → Nat
  | .codeBert => 2
  | .noop => 0

/-- `Model::prepare_input_ids` — the framing procedure.  For `CodeBert`
it asserts `ids.len() <= chunk_size - special_tokens`, pushes the
leading marker `0`, the body, the trailing marker `2`, then pads with
`1` up to the window length, and asserts the final length.  For `Noop`
it calls `Vec::clone_from_slice`, which panics unless the destination
slice (the current contents of `input_ids`) has the same length as the
body. -/
def Model.prepare_input_ids (m : Model) (input_ids : List Nat) (ids : List Nat) :
    RunResult (List Nat) :=
  match m with
  | .codeBert =>
    if ids.length ≤ Model.chunk_size .codeBert - Model.special_tokens .codeBert then
      if (input_ids ++ [0] ++ ids ++ [2] ++
          List.replicate (Model.chunk_size .codeBert - Model.special_tokens .codeBert
            - ids.length) 1).length = Model.chunk_size .codeBert then
        .ok (input_ids ++ [0] ++ ids ++ [2] ++
          List.replicate (Model.chunk_size .codeBert - Model.special_tokens .codeBert
            - ids.length) 1)
      else .panic "assertion failed: input_ids.len() == self.chunk_size()"
    else .panic "assertion failed: ids.len() <= self.chunk_size() - self.special_tokens()"
  | .noop =>
    if input_ids.length = ids.length then .ok ids
    else .panic "source slice length does not match destination slice length"

/-- A UTF-8 continuation byte. -/
def isCont (b : Nat) : Bool := 0x80 ≤ b && b < 0xC0

/-- Validity of a byte sequence as UTF-8, exactly as `str::from_utf8`
checks it (no overlong forms, no surrogates, max U+10FFFF). -/
def utf8Valid : List Nat → Bool
  | [] => true
  | b :: rest =>
    if b < 0x80 then utf8Valid rest
    else if b < 0xC2 then false
    else if b < 0xE0 then
      match rest with
      | c1 :: r => isCont c1 && utf8Valid r
      | [] => false
    else if b < 0xF0 then
      match rest with
      | c1 :: c2 :: r =>
        (if b = 0xE0 then 0xA0 ≤ c1 && c1 < 0xC0
         else if b = 0xED then 0x80 ≤ c1 && c1 < 0xA0
         else isCont c1) && isCont c2 && utf8Valid r
      | _ => false
    else if b < 0xF5 then
      match rest with
      | c1 :: c2 :: c3 :: r =>
        (if b = 0xF0 then 0x90 ≤ c1 && c1 < 0xC0
         else if b = 0xF4 then 0x80 ≤ c1 && c1 < 0x90
         else isCont c1) && isCont c2 && isCont c3 && utf8Valid r
      | _ => false
    else false

/-- The per-chunk record (`ExtractedChunk` in `chunker.rs`). -/
structure ExtractedChunk where
  ids : List Nat
  start_byte : Nat
  end_byte : Nat
deriving DecidableEq, Repr

/-- The data tree-sitter exposes on one node: kind name, byte range and
start/end points (row, column). -/
structure NodeData where
  kind : String
  startByte : Nat
  endByte : Nat
  startRow : Nat
  startCol : Nat
  endRow : Nat
  endCol : Nat
deriving DecidableEq, Repr

/-- A parsed subtree: node data plus the ordered child list. -/
inductive RsNode where
  | mk (data : NodeData) (children : List RsNode)

/-- The node's own data. -/
def RsNode.data : RsNode → NodeData
  | .mk d _ => d

/-- The node's ordered children. -/
def RsNode.children : RsNode → List RsNode
  | .mk _ cs => cs

mutual

/-- Preorder listing of the proper descendants of a node — the nodes the
matched-subtree traversal of `chunk_node` is meant to visit once each.
(The source's `TreeWalker`, modelled further below, attempts this
traversal but has no completion signal.) -/
def RsNode.descendants : RsNode → List NodeData
  | .mk _ cs => RsNode.descList cs

/-- Preorder data of a forest: every node in the forest and its
descendants, in tree order. -/
def RsNode.descList : List RsNode → List NodeData
  | [] => []
  | t :: ts => t.data :: (RsNode.descendants t ++ RsNode.descList ts)

end

/-- One `node_terminals[end_line] += 1` update; `none` is the Rust
out-of-bounds indexing panic. -/
def bumpAt (l : List Int) (i : Nat) : Option (List Int) :=
  if h : i < l.length then some (l.set i (l.get ⟨i, h⟩ + 1)) else none

/-- chunker.rs lines 56–65: build the terminal histogram.  For each
descendant whose (root-relative) start line differs from its end line,
increment the bucket of its end line.  Row differences are `usize`
subtractions. -/
def buildTerminals (rootStartRow : Nat) : List NodeData → List Int → RunResult (List Int)
  | [], acc => .ok acc
  | n :: rest, acc =>
    let endLine := usub n.endRow rootStartRow
    let startLine := usub n.startRow rootStartRow
    if startLine ≠ endLine then
      match bumpAt acc endLine with
      | some acc2 => buildTerminals rootStartRow rest acc2
      | none => .panic "index out of bounds: node_terminals"
    else buildTerminals rootStartRow rest acc

/-- chunker.rs lines 67–83: resolve each newline byte to its owning
token and enforce the line-length guard.  `i` is the current byte index,
`lastTok` the current value of `newline_token_indices.last()`, and the
guard's subtraction is a `usize` subtraction. -/
def buildNl (inner : Nat) (charToToken : Nat → Option Nat) :
    List Nat → Nat → Nat → List Nat → RunResult (List Nat)
  | [], _, _, acc => .ok acc
  | b :: rest, i, lastTok, acc =>
    if b = 10 then
      match charToToken i with
      | none => .err "Could not find token index for newline"
      | some t =>
        if usub t lastTok > inner then .err "line too long"
        else buildNl inner charToToken rest (i + 1) t (acc ++ [t])
    else buildNl inner charToToken rest (i + 1) lastTok acc

/-- The tokenizer's encoding object: token ids, the char-to-token map
(queried at byte positions by the source) and the token-to-chars map
(an offsets pair; the source reads its first component). -/
structure Encoding where
  ids : List Nat
  charToToken : Nat → Option Nat
  tokenToChars : Nat → Option (Nat × Nat)

/-- The `iter().enumerate().fold((0, -1), ...)` of chunker.rs lines
98–105: the accumulator is replaced whenever the current value is `≥`
its second component. -/
def foldMax (slice : List Int) : Nat × Int :=
  slice.enum.foldl (fun acc iv => if iv.2 ≥ acc.2 then (iv.1, iv.2) else acc) (0, -1)

/-- Helper for `ilog2`: structurally recursive halving. -/
def ilog2Aux : Nat → Nat → Nat
  | 0, _ => 0
  | fuel + 1, n => if n < 2 then 0 else ilog2Aux fuel (n / 2) + 1

/-- `usize::ilog2` for nonzero operands below `2 ^ 64`: the floor of the
base-2 logarithm. -/
def ilog2 (n : Nat) : Nat := ilog2Aux 64 n

/-- chunker.rs lines 96–106: choose the split line (the shadowed inner
`chunk_line_end`).  `min_end_point` is `min(chunk_line_start,
chunk_line_end - lookbehind_lines)` with a `usize` subtraction, the
scanned slice is `node_terminals[min_end_point..chunk_line_end - 1]`,
and the fold's result index is offset by `min_end_point`. -/
def chooseLineEnd (term : List Int) (ls le lookbehind : Nat) : RunResult Nat :=
  if min ls (usub le lookbehind) ≤ usub le 1 ∧ usub le 1 ≤ term.length then
    .ok ((foldMax ((term.take (usub le 1)).drop (min ls (usub le lookbehind)))).1 +
      min ls (usub le lookbehind))
  else .panic "slice index out of range: node_terminals"

/-- Rust `Vec` indexing: value, or the out-of-bounds panic. -/
def idx (l : List Nat) (i : Nat) : RunResult Nat :=
  if h : i < l.length then .ok (l.get ⟨i, h⟩) else .panic "index out of bounds"

/-- chunker.rs lines 108–111 and 144–147: the chunk-start token index,
`std::cmp::max(0, newline_token_indices[chunk_line_start] + 1 -
chunk_overlap)`, a `usize` expression whose `max(0, ·)` cannot clamp a
wrapped subtraction. -/
def chunkStart (nlLs overlap : Nat) : Nat := max 0 (usub (nlLs + 1) overlap)

/-- chunker.rs lines 85–142, the window-sliding loop over line cursors.
The source advances `chunk_line_end` by exactly one per iteration of
`while chunk_line_end < line_ct`, so running with
`fuel = line_ct - chunk_line_end` is exact.  The `let chunk_line_end`
inside the `if` (the chosen split line) shadows the outer cursor, so
closing a chunk does not move the outer cursor back. -/
def slideLoop (m : Model) (enc : Encoding) (nl : List Nat) (term : List Int) :
    Nat → Nat → Nat → Nat → List ExtractedChunk →
    RunResult (Nat × List ExtractedChunk)
  | 0, ls, _, _, chunks => .ok (ls, chunks)
  | fuel + 1, ls, le, first, chunks =>
    (idx nl (le + 1)).bind fun nlLe =>
    (idx nl ls).bind fun nlLs =>
    if usub nlLe nlLs >
        Model.chunk_size m - Model.chunk_overlap m - first * Model.chunk_overlap m then
      (chooseLineEnd term ls (le + 1) (ilog2 (Model.chunk_size m))).bind fun lineEnd =>
      (idx nl lineEnd).bind fun nlLe2 =>
      if chunkStart nlLs (Model.chunk_overlap m) ≤
            min (usub enc.ids.length 1) (nlLe2 + Model.chunk_overlap m) ∧
          min (usub enc.ids.length 1) (nlLe2 + Model.chunk_overlap m) ≤ enc.ids.length then
        (Model.prepare_input_ids m []
            ((enc.ids.take (min (usub enc.ids.length 1) (nlLe2 + Model.chunk_overlap m))).drop
              (chunkStart nlLs (Model.chunk_overlap m)))).bind fun toks =>
        (expectTok (enc.tokenToChars
            (chunkStart nlLs (Model.chunk_overlap m)))).bind fun sb =>
        (expectTok (enc.tokenToChars
            (min (usub enc.ids.length 1) (nlLe2 + Model.chunk_overlap m)))).bind fun eb =>
        slideLoop m enc nl term fuel lineEnd (le + 1) 0
          (chunks ++ [⟨toks, sb.1, eb.1⟩])
      else .panic "slice index out of range: ids"
    else slideLoop m enc nl term fuel ls (le + 1) first chunks

/-- `Chunker::from_model`: a chunker owns its model and a tokenizer (the
external collaborator, modelled as an encode function from source bytes
to a `tokenizers` result). -/
structure ChunkerT where
  model : Model
  encodeFn : List Nat → Except String Encoding

/-- Chunker field `chunk_size`. -/
def ChunkerT.chunk_size (c : ChunkerT) : Nat := Model.chunk_size c.model

/-- Chunker field `inner_chunk_size = chunk_size - 2 * chunk_overlap -
special_tokens`. -/
def ChunkerT.inner_chunk_size (c : ChunkerT) : Nat :=
  Model.chunk_size c.model - Model.chunk_overlap c.model * 2 -
    Model.special_tokens c.model

/-- Chunker field `chunk_overlap`. -/
def ChunkerT.chunk_overlap (c : ChunkerT) : Nat := Model.chunk_overlap c.model

/-- Chunker field `lookbehind_lines = chunk_size.ilog2()`. -/
def ChunkerT.lookbehind_lines (c : ChunkerT) : Nat := ilog2 (Model.chunk_size c.model)

/-- `Chunker::chunk_node` (chunker.rs lines 31–172).  The length
assertion, the UTF-8 `expect`, the tokenizer encode and the short-input
fast path all execute.  On the general path the source first builds the
terminal histogram by iterating `TreeWalker::from_node(node)` (lines
56–65): the iterator yields the proper descendants in preorder — so
out-of-range `node_terminals` increments panic as modelled by
`buildTerminals` — and then, the iterator having no terminating branch
(both arms of `TreeWalker::next` return `Some`, and once the subtree is
exhausted its sibling/parent loop spins forever, see the cursor model
below), the `for` loop never exits: every general-path run that does
not panic in the histogram diverges.  The stages the source would run
after the traversal (newline scan, split-line choice, sliding loop,
trailing chunk) are embedded in isolation as `buildNl`,
`chooseLineEnd`, `chunkStart` and `slideLoop`. -/
def chunkNode (c : ChunkerT) (source : List Nat) (node : RsNode) :
    RunBehavior (List ExtractedChunk) :=
  if source.length ≠ usub node.data.endByte node.data.startByte then
    .terminates
      (.panic "assertion failed: source.len() == node.end_byte() - node.start_byte()")
  else if utf8Valid source = false then
    .terminates (.panic "invalid utf-8")
  else
    match c.encodeFn source with
    | .error e => .terminates (.err ("Could not encode source: " ++ e))
    | .ok enc =>
      if enc.ids.length < c.chunk_size - Model.special_tokens c.model then
        match Model.prepare_input_ids c.model [] enc.ids with
        | .ok toks => .terminates (.ok [⟨toks, 0, source.length⟩])
        | .err e => .terminates (.err e)
        | .panic msg => .terminates (.panic msg)
      else
        match buildTerminals node.data.startRow node.descendants
            (List.replicate (source.count 10 + 1) 0) with
        | .panic msg => .terminates (.panic msg)
        | _ => .diverges

/-- A `tree_sitter::TreeCursor` obtained from `node.walk()`: the node the
cursor was constructed on, plus the path of child indices leading to the
cursor's current node.  The cursor cannot move above the node it was
constructed on. -/
structure Cursor where
  root : RsNode
  path : List Nat

/-- The node a path leads to, if the indices are in range. -/
def nodeAtPath : RsNode → List Nat → Option RsNode
  | n, [] => some n
  | n, i :: rest =>
    match n.children.get? i with
    | some c => nodeAtPath c rest
    | none => none

/-- `TreeCursor::goto_first_child`: descend when the current node has a
child, report failure otherwise. -/
def gotoFirstChild (c : Cursor) : Option Cursor :=
  match nodeAtPath c.root c.path with
  | some n => if n.children.isEmpty then none else some ⟨c.root, c.path ++ [0]⟩
  | none => none

/-- `TreeCursor::goto_next_sibling`: move to the next sibling, failing at
the cursor's root or at a last child. -/
def gotoNextSibling (c : Cursor) : Option Cursor :=
  match h : c.path.getLast? with
  | none => none
  | some i =>
    let parentPath := c.path.dropLast
    match nodeAtPath c.root parentPath with
    | some p => if i + 1 < p.children.length then some ⟨c.root, parentPath ++ [i + 1]⟩ else none
    | none => none

/-- `TreeCursor::goto_parent`: ascend one step, failing at the cursor's
root. -/
def gotoParent (c : Cursor) : Option Cursor :=
  match c.path with
  | [] => none
  | _ => some ⟨c.root, c.path.dropLast⟩

/-- The `while !self.cursor.goto_next_sibling() { if !self.cursor.goto_parent() { () } }`
loop of `TreeWalker::next` (chunker.rs lines 201-205), run for at most
`fuel` iterations; `none` means the loop was still running when the fuel
ran out.  When `goto_parent` fails the loop body does nothing (`()`), so
the state is retried unchanged. -/
def twLoop : Nat → Cursor → Option Cursor
  | 0, _ => none
  | fuel + 1, c =>
    match gotoNextSibling c with
    | some c2 => some c2
    | none =>
      match gotoParent c with
      | some p => twLoop fuel p
      | none => twLoop fuel c

/-- `TreeWalker::next` (chunker.rs lines 197-208) under a fuel bound for
its inner loop: descend to the first child when possible, otherwise loop
for a sibling.  Both source branches return `Some`; the iterator has no
terminating branch. -/
def twNext (fuel : Nat) (c : Cursor) : Option Cursor :=
  match gotoFirstChild c with
  | some c2 => some c2
  | none => twLoop fuel c

/-- A capture reported by the query engine: the capture's index into the
query's capture-name list, and the captured node's subtree. -/
structure CaptureT where
  index : Nat
  node : RsNode

/-- The `Extractor` binding (extractor.rs lines 14-22): a language (its
display string), the compiled query's capture names, the model, and the
owned chunker's tokenizer. -/
structure ExtractorT where
  languageName : String
  captures : List String
  model : Model
  encodeFn : List Nat → Except String Encoding

/-- Rust's `name.starts_with('_')`: whether the first character is an
underscore. -/
def startsWithUnderscore (s : String) : Bool :=
  match s.data with
  | [] => false
  | c :: _ => c = '_'

/-- The indices of structural capture names — those starting with an
underscore (extractor.rs lines 28-33). -/
def ignoresOf (captures : List String) : List Nat :=
  ((captures.enum.filter fun p => startsWithUnderscore p.2).map fun p => p.1)

/-- `Extractor::new`: build the binding and, when every capture label is
structural, emit the all-structural warning (extractor.rs lines 25-47).
Returns the extractor together with the warning lines printed. -/
def extractorNew (languageName : String) (captures : List String) (model : Model)
    (encodeFn : List Nat → Except String Encoding) : ExtractorT × List String :=
  (⟨languageName, captures, model, encodeFn⟩,
    if captures.length = (ignoresOf captures).length then
      ["Warning: query only has ignored captures. No results will be printed."]
    else [])

/-- A per-match record (`ExtractedMatch`): node kind, capture name, the
matched text (kept as its byte sequence), 0-based start and end points,
and the chunk list. -/
structure ExtractedMatchR where
  kind : String
  name : String
  text : List Nat
  startPoint : Nat × Nat
  endPoint : Nat × Nat
  chunks : List ExtractedChunk
deriving DecidableEq, Repr

/-- A per-file record (`ExtractedFile`). -/
structure ExtractedFileR where
  file : Option String
  fileType : String
  matchList : List ExtractedMatchR
deriving DecidableEq, Repr

/-- How a call to `extract_from_text` ends: a panic that unwinds the
call, a hang inside a diverging chunker call, or a normal return of the
optional file record. -/
inductive ExtractOutcome where
  | panicked (msg : String)
  | hung
  | finished (res : Option ExtractedFileR)
deriving DecidableEq, Repr

/-- The observable behaviour of one `extract_from_text` call: the
warning lines written to the diagnostic stream, in order, and the way
the call ended. -/
structure ExtractResult where
  warnings : List String
  outcome : ExtractOutcome
deriving DecidableEq, Repr

/-- Rust `&source[a..b]` on a byte slice. -/
def sliceBytes (source : List Nat) (a b : Nat) : List Nat :=
  (source.take b).drop a

/-- The warning line printed when chunking one capture fails
(extractor.rs lines 101-106). -/
def chunkWarning (pathStr : String) (e : String) : String :=
  "warning: tokenization for " ++ pathStr ++ " failed: " ++ e

/-- The capture-processing pipeline of `extract_from_text` (extractor.rs
lines 85-123): skip structural captures, slice the captured node's
bytes, chunk them, warn and drop the capture on a chunker error, and
otherwise assemble a match record.  A chunker panic (or an out-of-range
byte slice, or an out-of-range capture index) unwinds the whole call,
and a diverging chunker call hangs it. -/
def extractLoop (ex : ExtractorT) (path : Option String) (pathStr : String)
    (source : List Nat) :
    List CaptureT → List String → List ExtractedMatchR → ExtractResult
  | [], ws, ms =>
    ⟨ws, .finished (if ms.isEmpty then none
      else some ⟨path, ex.languageName, ms⟩)⟩
  | cap :: rest, ws, ms =>
    if (ignoresOf ex.captures).contains cap.index then
      extractLoop ex path pathStr source rest ws ms
    else
      match ex.captures.get? cap.index with
      | none => ⟨ws, .panicked "index out of bounds: captures"⟩
      | some name =>
        if cap.node.data.startByte ≤ cap.node.data.endByte ∧
            cap.node.data.endByte ≤ source.length then
          let nodeSource := sliceBytes source cap.node.data.startByte cap.node.data.endByte
          match chunkNode ⟨ex.model, ex.encodeFn⟩ nodeSource cap.node with
          | .diverges => ⟨ws, .hung⟩
          | .terminates (.panic msg) => ⟨ws, .panicked msg⟩
          | .terminates (.err e) =>
            extractLoop ex path pathStr source rest (ws ++ [chunkWarning pathStr e]) ms
          | .terminates (.ok chunks) =>
            extractLoop ex path pathStr source rest ws
              (ms ++ [⟨cap.node.data.kind, name, nodeSource,
                (cap.node.data.startRow, cap.node.data.startCol),
                (cap.node.data.endRow, cap.node.data.endCol), chunks⟩])
        else ⟨ws, .panicked "byte index out of bounds: source"⟩

/-- `Extractor::extract_from_text` (extractor.rs lines 63-134).  Parsing
is the external collaborator: `caps` is the capture stream the query
cursor reports on the parsed tree, in match order. -/
def extractFromText (ex : ExtractorT) (path : Option String) (source : List Nat)
    (caps : List CaptureT) : ExtractResult :=
  extractLoop ex path (path.getD "stdin") source caps [] []

/-- Whether one capture can be processed without unwinding the call: it
is structural, or its index resolves, its node's byte range lies inside
the source, and chunking its slice does not panic. -/
def capBenign (captures : List String) (model : Model)
    (encodeFn : List Nat → Except String Encoding) (source : List Nat)
    (cap : CaptureT) : Prop :=
  (ignoresOf captures).contains cap.index ∨
    ((captures.get? cap.index).isSome ∧
     cap.node.data.startByte ≤ cap.node.data.endByte ∧
     cap.node.data.endByte ≤ source.length ∧
     (chunkNode ⟨model, encodeFn⟩
       (sliceBytes source cap.node.data.startByte cap.node.data.endByte)
       cap.node).returnedCleanly = true)

/-- The warning line one capture contributes: present exactly when the
capture is reported (non-structural) and its chunking fails with an
error. -/
def capWarning (captures : List String) (model : Model)
    (encodeFn : List Nat → Except String Encoding) (pathStr : String)
    (source : List Nat) (cap : CaptureT) : Option String :=
  if (ignoresOf captures).contains cap.index then none
  else
    match chunkNode ⟨model, encodeFn⟩
        (sliceBytes source cap.node.data.startByte cap.node.data.endByte) cap.node with
    | .terminates (.err e) => some (chunkWarning pathStr e)
    | _ => none

/-- The match record one capture contributes: present exactly when the
capture is reported (non-structural), its name resolves and its
chunking succeeds. -/
def capMatch (captures : List String) (model : Model)
    (encodeFn : List Nat → Except String Encoding) (source : List Nat)
    (cap : CaptureT) : Option ExtractedMatchR :=
  if (ignoresOf captures).contains cap.index then none
  else
    match captures.get? cap.index with
    | none => none
    | some name =>
      match chunkNode ⟨model, encodeFn⟩
          (sliceBytes source cap.node.data.startByte cap.node.data.endByte) cap.node with
      | .terminates (.ok chunks) =>
        some ⟨cap.node.data.kind, name,
          sliceBytes source cap.node.data.startByte cap.node.data.endByte,
          (cap.node.data.startRow, cap.node.data.startCol),
          (cap.node.data.endRow, cap.node.data.endCol), chunks⟩
      | _ => none

/-- The optional file record from an accumulated match list: a file with
no reported matches yields no record. -/
def mkFileOpt (path : Option String) (languageName : String)
    (ms : List ExtractedMatchR) : Option ExtractedFileR :=
  if ms.isEmpty then none else some ⟨path, languageName, ms⟩

/-- The (kind, label, text, start, end) tuple of a match record — the
view under which fusion equivalence is stated. -/
def matchTuple (m : ExtractedMatchR) :
    String × String × List Nat × (Nat × Nat) × (Nat × Nat) :=
  (m.kind, m.name, m.text, m.startPoint, m.endPoint)

/-- The match tuples an extraction call reports (none when the call
panicked or was filtered out). -/
def resultTuples (r : ExtractResult) :
    List (String × String × List Nat × (Nat × Nat) × (Nat × Nat)) :=
  match r.outcome with
  | .finished (some f) => f.matchList.map matchTuple
  | _ => []

/-- The tree-sitter query engine, the chooser's external collaborator:
compiling a pattern text yields its capture-name list (`none` is a
pattern-parse failure), and running a compiled pattern over a parsed
tree reports a capture stream. -/
structure QueryEngine where
  parseNames : String → Option (List String)
  runQuery : String → RsNode → List Nat → List CaptureT

/-- cli.rs lines 187–195: compile-validate one raw pattern and, when the
compiled query declares no captures, append the literal label
`@query` to its text. -/
def augmentQuery (eng : QueryEngine) (raw : String) : Option String :=
  match eng.parseNames raw with
  | none => none
  | some names => some (if names.isEmpty then raw ++ "@query" else raw)

/-- cli.rs lines 196–201: append an augmented pattern text to its
language's bucket (pattern order within a bucket is preserved). -/
def addToBuckets (buckets : List (String × String)) (lang text : String) :
    List (String × String) :=
  match buckets with
  | [] => [(lang, text)]
  | (l, s) :: rest =>
    if l = lang then (l, s ++ text) :: rest
    else (l, s) :: addToBuckets rest lang text

/-- cli.rs lines 184–202: validate, augment and bucket the user's
(language, raw pattern) pairs; `none` is the `"could not parse query"`
failure. -/
def fuseTargets (eng : QueryEngine) :
    List (String × String) → List (String × String) →
    Option (List (String × String))
  | [], buckets => some buckets
  | (lang, raw) :: rest, buckets =>
    match augmentQuery eng raw with
    | none => none
    | some text => fuseTargets eng rest (addToBuckets buckets lang text)

/-- The capture stream of one pattern text with indices resolved to
label strings through that pattern's own capture-name list. -/
def labeledCaps (eng : QueryEngine) (text : String) (tree : RsNode)
    (source : List Nat) : List (String × RsNode) :=
  (eng.runQuery text tree source).map fun cap =>
    (((eng.parseNames text).getD []).getD cap.index "", cap.node)

/-- The match record a (label, node) pair produces, by label alone:
structural labels are skipped, chunker errors drop the pair, chunker
success yields the record. -/
def labMatch (model : Model) (encodeFn : List Nat → Except String Encoding)
    (source : List Nat) (p : String × RsNode) : Option ExtractedMatchR :=
  if startsWithUnderscore p.1 then none
  else
    match chunkNode ⟨model, encodeFn⟩
        (sliceBytes source p.2.data.startByte p.2.data.endByte) p.2 with
    | .terminates (.ok chunks) =>
      some ⟨p.2.data.kind, p.1,
        sliceBytes source p.2.data.startByte p.2.data.endByte,
        (p.2.data.startRow, p.2.data.startCol),
        (p.2.data.endRow, p.2.data.endCol), chunks⟩
    | _ => none

/-- The split-line selection exactly as the specification words it: the
earliest index in `[max(ls, le − lookbehind), le − 1]` attaining the
maximum of `term` over that range, under exact integer arithmetic. -/
def chooseLineEndSpec (term : List Int) (ls le lookbehind : Nat) : Nat :=
  let lookback := max ls (le - lookbehind)
  (List.range (le - lookback)).foldl
    (fun best k =>
      if term.getD (lookback + k) 0 > term.getD best 0 then lookback + k else best)
    lookback

/-- The token indices the chunker's newline scan resolves, in scan
order: one entry per newline byte of the buffer, starting the byte count
at `i` (`0` stands in for a failed resolution). -/
def resolveFrom (ctt : Nat → Option Nat) : List Nat → Nat → List Nat
  | [], _ => []
  | b :: rest, i =>
    if b = 10 then (ctt i).getD 0 :: resolveFrom ctt rest (i + 1)
    else resolveFrom ctt rest (i + 1)

/-- The full newline token-index sequence of a buffer under a
char-to-token map: the sentinel `0` followed by the owning token of each
newline byte. -/
def nlSeq (charToToken : Nat → Option Nat) (source : List Nat) : List Nat :=
  0 :: resolveFrom charToToken source 0


/-- A childless matched node with the given byte span (rows and columns
zero). -/
def leafNode (endB : Nat) : RsNode := .mk ⟨"identifier", 0, endB, 0, 0, 0, endB⟩ []

/-- A one-token encoding, used for short-input runs. -/
def encShort : Encoding := ⟨[7], fun _ => none, fun _ => none⟩

/-- A 510-token encoding of a newline-free buffer: the exact boundary at
which the fast-path test `ids.len() < chunk_size - special_tokens`
fails. -/
def encAtBound : Encoding := ⟨List.replicate 510 7, fun _ => none, fun _ => none⟩

/-- A three-line source buffer: lines of 300, 300 and 100 bytes. -/
def srcThreeLines : List Nat :=
  List.replicate 300 97 ++ [10] ++ List.replicate 300 97 ++ [10] ++ List.replicate 100 97

/-- A 700-token encoding of `srcThreeLines` whose newlines resolve to
tokens 200 and 400. -/
def encThreeLines : Encoding :=
  ⟨List.replicate 700 7,
   fun i => if i = 300 then some 200 else if i = 601 then some 400 else none,
   fun _ => none⟩

/-- The matched node for `srcThreeLines`. -/
def nodeThreeLines : RsNode := .mk ⟨"block", 0, 702, 0, 0, 2, 100⟩ []

/-- A 510-token encoding of a buffer whose single newline (byte 509)
resolves to token 400 — further than `inner_chunk_size = 382` from the
sentinel. -/
def encGuard : Encoding :=
  ⟨List.replicate 510 7, fun i => if i = 509 then some 400 else none, fun _ => none⟩

/-- The buffer for `encGuard`: 509 bytes then a newline. -/
def srcGuard : List Nat := List.replicate 509 97 ++ [10]

instance (captures : List String) (model : Model)
    (encodeFn : List Nat → Except String Encoding) (source : List Nat)
    (cap : CaptureT) : Decidable (capBenign captures model encodeFn source cap) := by
  unfold capBenign
  infer_instance

/-- The extractor used in concrete extraction runs: language "Elm", one
reported capture label, CodeBert model, a tokenizer that fails on the
byte buffer `[98]` and returns one token otherwise. -/
def exSample : ExtractorT :=
  ⟨"Elm", ["x"], .codeBert,
   fun s => if s = [98] then .error "boom" else .ok encShort⟩

/-- The capture list for the C3 witness: a succeeding capture (bytes
`[97]`) followed by one whose tokenizer encode fails (bytes `[98]`). -/
def c3Caps : List CaptureT :=
  [⟨0, .mk ⟨"identifier", 0, 1, 0, 0, 0, 1⟩ []⟩,
   ⟨0, .mk ⟨"string", 1, 2, 0, 0, 0, 2⟩ []⟩]

/-- The per-node part of benignness: the captured node's byte range lies
inside the source and chunking its slice does not panic. -/
def nodeBenign (model : Model) (encodeFn : List Nat → Except String Encoding)
    (source : List Nat) (node : RsNode) : Prop :=
  node.data.startByte ≤ node.data.endByte ∧
  node.data.endByte ≤ source.length ∧
  (chunkNode ⟨model, encodeFn⟩
    (sliceBytes source node.data.startByte node.data.endByte)
    node).returnedCleanly = true

/-- cli.rs line 210 / extractor.rs line 25: the extractor built from one
compiled query text (its capture names coming from the engine). -/
def extractorOfQuery (eng : QueryEngine) (languageName : String) (model : Model)
    (encodeFn : List Nat → Except String Encoding) (text : String) : ExtractorT :=
  (extractorNew languageName ((eng.parseNames text).getD []) model encodeFn).1

/-- First captured node of the fusion witness: byte 0 of a two-byte
buffer. -/
def nodeA : RsNode := .mk ⟨"identifier", 0, 1, 0, 0, 0, 1⟩ []

/-- Second captured node of the fusion witness: byte 1 of a two-byte
buffer. -/
def nodeB : RsNode := .mk ⟨"string", 1, 2, 0, 0, 0, 2⟩ []

/-- A two-pattern engine for the fusion witness: `(a)@x` and `(b)@x`
each capture one node, their concatenation captures both in order, and
the captureless pattern `(c)` parses to an empty name list. -/
def engPair : QueryEngine :=
  ⟨fun q => if q = "(c)" then some [] else some ["x"],
   fun q _ _ =>
     if q = "(a)@x" then [⟨0, nodeA⟩]
     else if q = "(b)@x" then [⟨0, nodeB⟩]
     else if q = "(a)@x(b)@x" then [⟨0, nodeA⟩, ⟨0, nodeB⟩]
     else []⟩

theorem usub_of_le {a b : Nat} (h : b ≤ a) (ha : a < USIZE) (hb : b < USIZE) :
    usub a b = a - b := by
  unfold usub
  rw [Nat.mod_eq_of_lt hb]
  have h1 : a + USIZE - b = (a - b) + USIZE := by omega
  rw [h1, Nat.add_mod_right, Nat.mod_eq_of_lt (by omega)]

theorem usub_lt {a b : Nat} (ha : a < USIZE) : usub a b < USIZE := by
  unfold usub
  exact Nat.mod_lt _ (by norm_num [USIZE])

/-- C2: the code at the failing input — the claim says the
terminal-histogram traversal stops when the subtree of the matched node
is exhausted, i.e. `TreeWalker` yields only finitely many nodes.  On a
matched node with no children, `TreeWalker::next` (modelled by `twNext`)
never leaves its sibling/parent loop no matter how many iterations it is
allowed: at the cursor's root both `goto_next_sibling` and `goto_parent`
fail and the loop body does nothing, so the iterator never signals
completion. -/
theorem c2_treewalker_loops_on_exhausted_subtree (fuel : Nat) :
    twNext fuel ⟨leafNode 1, []⟩ = none := by
  have hsib : gotoNextSibling ⟨leafNode 1, []⟩ = none := rfl
  have hpar : gotoParent ⟨leafNode 1, []⟩ = none := rfl
  have hloop : ∀ f, twLoop f ⟨leafNode 1, []⟩ = none := by
    intro f
    induction f with
    | zero => rfl
    | succ n ih => rw [twLoop, hsib, hpar]; exact ih
  rw [twNext]
  have hfc : gotoFirstChild ⟨leafNode 1, []⟩ = none := rfl
  rw [hfc]
  exact hloop fuel

/-- C5: the code at the failing input — the no-op descriptor's framing
(`Model::prepare_input_ids`, `Noop` arm) calls `Vec::clone_from_slice`
on the freshly created empty output vector, which panics for every
non-empty body instead of copying the body verbatim; a short input under
the no-op model therefore panics rather than yielding one chunk whose
ids equal the raw tokenization. -/
theorem c5_noop_framing_panics :
    chunkNode ⟨.noop, fun _ => .ok encShort⟩ [97] (leafNode 1) =
      .terminates
        (.panic "source slice length does not match destination slice length") := by
  decide

/-- C6: the code at the failing input — the claimed start index
`max(0, nl[ls] + 1 − O)` is written in the source as the `usize`
expression `std::cmp::max(0, nl[ls] + 1 - chunk_overlap)` (lines
108–111 and 144–147, embedded as `chunkStart`): for the first closed
chunk `nl[ls] = 0`, so `1 - 64` wraps to `2^64 − 63`, and the vacuous
unsigned `max(0, ·)` does not clamp it to the claimed 0 (the subsequent
slice of `ids` would panic; debug builds panic at the subtraction
itself).  Moreover the shipped general path never reaches this
computation at all: it diverges in the terminal-histogram traversal, as
the run on a concrete three-line buffer shows. -/
theorem c6_chunk_start_underflows :
    chunkStart 0 (Model.chunk_overlap .codeBert) = USIZE - 63 ∧
    chunkStart 0 (Model.chunk_overlap .codeBert) ≠ 0 ∧
    chunkNode ⟨.codeBert, fun _ => .ok encThreeLines⟩ srcThreeLines nodeThreeLines =
      .diverges :=
  ⟨by decide, by decide, by decide⟩


/-- C4: counterexample — at tokenization length exactly `W − F = 510`
the claim's bound `L + F ≤ W` holds (with equality), yet the source's
fast-path test `ids.len() < chunk_size - special_tokens` is strict, so
the input takes the general path; there it diverges in the
terminal-histogram traversal instead of emitting the single framed
chunk the claim requires. -/
theorem c4_boundary_takes_general_path :
    encAtBound.ids.length + Model.special_tokens .codeBert ≤ Model.chunk_size .codeBert ∧
    chunkNode ⟨.codeBert, fun _ => .ok encAtBound⟩ (List.replicate 510 97) (leafNode 510) =
      .diverges :=
  ⟨by decide, by decide⟩

/-- C4 (amended): for the CodeBert model, every input whose tokenization
satisfies the strict bound `L + F < W` takes the fast path and yields
exactly one chunk — the framed whole tokenization — with
`start_byte = 0` and `end_byte = len(S)`. -/
theorem c4_fast_path_strict (encodeFn : List Nat → Except String Encoding)
    (source : List Nat) (node : RsNode) (enc : Encoding)
    (hlen : source.length = usub node.data.endByte node.data.startByte)
    (hutf : utf8Valid source = true)
    (henc : encodeFn source = .ok enc)
    (hshort : enc.ids.length + Model.special_tokens .codeBert < Model.chunk_size .codeBert) :
    chunkNode ⟨.codeBert, encodeFn⟩ source node =
      .terminates (.ok [⟨[0] ++ enc.ids ++ [2] ++
        List.replicate (510 - enc.ids.length) 1, 0, source.length⟩]) := by
  have hs : enc.ids.length < 510 := by
    simp only [Model.chunk_size, Model.special_tokens] at hshort
    omega
  have hprep : Model.prepare_input_ids .codeBert [] enc.ids =
      .ok ([0] ++ enc.ids ++ [2] ++ List.replicate (510 - enc.ids.length) 1) := by
    unfold Model.prepare_input_ids
    rw [if_pos (by simp only [Model.chunk_size, Model.special_tokens]; omega),
      if_pos (by simp [Model.chunk_size, Model.special_tokens]; omega)]
    simp [Model.chunk_size, Model.special_tokens]
  unfold chunkNode
  rw [if_neg (by simp [hlen]), if_neg (by simp [hutf])]
  simp only [henc, ChunkerT.chunk_size, Model.chunk_size, Model.special_tokens]
  rw [if_pos (by omega), hprep]

/-- Framing under CodeBert only returns normally with a window of
exactly `W = 512` token ids. -/
theorem prepare_codeBert_length {input_ids ids out : List Nat}
    (h : Model.prepare_input_ids .codeBert input_ids ids = .ok out) :
    out.length = 512 := by
  simp only [Model.prepare_input_ids] at h
  split_ifs at h with h1 h2
  · simp only [RunResult.ok.injEq] at h
    subst h
    simpa [Model.chunk_size] using h2

/-- C1: every chunk record the chunker returns under the CodeBert model
(the finite-window model, `W = 512`, `F = 2`) has a token-id list of
length exactly `W`: both the fast path and the general path frame every
body through `prepare_input_ids`, which returns normally only with a
512-token window. -/
theorem c1_chunks_have_window_length
    (encodeFn : List Nat → Except String Encoding) (source : List Nat)
    (node : RsNode) (chunks : List ExtractedChunk)
    (h : chunkNode ⟨.codeBert, encodeFn⟩ source node = .terminates (.ok chunks)) :
    ∀ ch ∈ chunks, ch.ids.length = 512 := by
  unfold chunkNode at h
  split at h
  next => simp at h
  next =>
    split at h
    next => simp at h
    next =>
      split at h
      next => simp at h
      next enc henc =>
        split at h
        · split at h
          next toks hprep =>
            simp only [RunBehavior.terminates.injEq, RunResult.ok.injEq] at h
            subst h
            intro ch hch
            rcases List.mem_singleton.mp hch with rfl
            exact prepare_codeBert_length hprep
          next => simp at h
          next => simp at h
        · split at h <;> simp at h

/-- Witness for C1 at a concrete fast-path input. -/
theorem c1_witness :
    chunkNode ⟨.codeBert, fun _ => .ok encShort⟩ [97] (leafNode 1) =
      .terminates (.ok [⟨[0, 7, 2] ++ List.replicate 509 1, 0, 1⟩]) ∧
    ∀ ch ∈ [ExtractedChunk.mk ([0, 7, 2] ++ List.replicate 509 1) 0 1],
      ch.ids.length = 512 :=
  ⟨by decide, fun ch hch =>
    c1_chunks_have_window_length (fun _ => .ok encShort) [97] (leafNode 1) _
      (by decide) ch hch⟩

/-- Witness for C4 (amended) at a concrete one-token input. -/
theorem c4_witness :
    chunkNode ⟨.codeBert, fun _ => .ok encShort⟩ [97] (leafNode 1) =
      .terminates (.ok [⟨[0] ++ encShort.ids ++ [2] ++
        List.replicate (510 - encShort.ids.length) 1,
        0, ([97] : List Nat).length⟩]) :=
  c4_fast_path_strict (fun _ => .ok encShort) [97] (leafNode 1) encShort
    (by decide) (by decide) rfl (by decide)

/-- Invariants of the running fold of `foldMax`, generalized over the
enumeration offset and the accumulator: the result value dominates the
accumulator and every scanned entry, the result is the accumulator or a
scanned (index, value) pair, and any entry equal to the result value
lies at or before the result index (ties go to the latest index, since
the source updates on `>=`). -/
theorem foldMax_go_spec :
    ∀ (l : List Int) (k : Nat) (acc r : Nat × Int),
      acc.1 ≤ k →
      (l.enumFrom k).foldl
        (fun a iv => if iv.2 ≥ a.2 then (iv.1, iv.2) else a) acc = r →
      acc.2 ≤ r.2 ∧ acc.1 ≤ r.1 ∧
      (∀ j, j < l.length → l.getD j 0 ≤ r.2) ∧
      (r = acc ∨ ∃ j, j < l.length ∧ r.1 = k + j ∧ l.getD j 0 = r.2) ∧
      (∀ j, j < l.length → l.getD j 0 = r.2 → k + j ≤ r.1) := by
  intro l
  induction l with
  | nil =>
    intro k acc r hk hr
    simp only [List.enumFrom, List.foldl_nil] at hr
    subst hr
    exact ⟨le_refl _, le_refl _, by simp, Or.inl rfl, by simp⟩
  | cons a as ih =>
    intro k acc r hk hr
    simp only [List.enumFrom, List.foldl_cons] at hr
    split at hr
    next hcmp =>
      obtain ⟨i1, i2, i3, i4, i5⟩ := ih (k + 1) (k, a) r (by simp) hr
      refine ⟨le_trans (by simpa using hcmp) (by simpa using i1), ?_, ?_, ?_, ?_⟩
      · exact le_trans hk (by simpa using i2)
      · intro j hj
        match j with
        | 0 => simpa using i1
        | j + 1 => simpa using i3 j (by simpa using hj)
      · rcases i4 with h | ⟨j, hj, hj1, hj2⟩
        · subst h
          exact Or.inr ⟨0, by simp, by simp, by simp⟩
        · exact Or.inr ⟨j + 1, by simpa using hj, by omega, by simpa using hj2⟩
      · intro j hj hv
        match j with
        | 0 => simpa using i2
        | j + 1 =>
          have := i5 j (by simpa using hj) (by simpa using hv)
          omega
    next hcmp =>
      obtain ⟨i1, i2, i3, i4, i5⟩ := ih (k + 1) acc r (by omega) hr
      refine ⟨i1, i2, ?_, ?_, ?_⟩
      · intro j hj
        match j with
        | 0 =>
          have : a < acc.2 := by simpa using hcmp
          simpa using le_of_lt (lt_of_lt_of_le this i1)
        | j + 1 => simpa using i3 j (by simpa using hj)
      · rcases i4 with h | ⟨j, hj, hj1, hj2⟩
        · exact Or.inl h
        · exact Or.inr ⟨j + 1, by simpa using hj, by omega, by simpa using hj2⟩
      · intro j hj hv
        match j with
        | 0 =>
          have h1 : a < acc.2 := by simpa using hcmp
          have h2 : a = r.2 := by simpa using hv
          omega
        | j + 1 =>
          have := i5 j (by simpa using hj) (by simpa using hv)
          omega

/-- For a nonempty slice of non-negative entries, the fold of chunker.rs
lines 98–105 returns the latest index attaining the maximum entry. -/
theorem foldMax_spec (l : List Int) (hne : l ≠ []) (hnn : ∀ x ∈ l, 0 ≤ x) :
    (foldMax l).1 < l.length ∧
    l.getD (foldMax l).1 0 = (foldMax l).2 ∧
    (∀ j, j < l.length → l.getD j 0 ≤ (foldMax l).2) ∧
    (∀ j, j < l.length → l.getD j 0 = (foldMax l).2 → j ≤ (foldMax l).1) := by
  obtain ⟨h1, h2, h3, h4, h5⟩ :=
    foldMax_go_spec l 0 (0, -1) (foldMax l) (by simp) rfl
  have hlen : 0 < l.length := by
    cases l with
    | nil => exact absurd rfl hne
    | cons a as => simp
  rcases h4 with h | ⟨j, hj, hj1, hj2⟩
  · exfalso
    cases l with
    | nil => exact absurd rfl hne
    | cons a as =>
      have hx : (a :: as).getD 0 0 ≤ (foldMax (a :: as)).2 := h3 0 (by simp)
      have ha : (0 : Int) ≤ a := hnn a (by simp)
      rw [h] at hx
      simp at hx
      omega
  · refine ⟨by omega, ?_, h3, fun j2 hj2' hv => by simpa using h5 j2 hj2' hv⟩
    have : (foldMax l).1 = j := by omega
    rw [this]
    exact hj2

/-- C7: counterexample — with `term = [0,0,9]`, `ls = 0`, `le = 3` and
CodeBert's `⌊log2 W⌋ = 9`, the claim's split line (the earliest index of
`[max(ls, le − 9), le − 1] = [0, 2]` maximizing `term`, computed by
`chooseLineEndSpec`) is 2, but the source scans
`node_terminals[min(ls, le − 9)..le − 1]` — which excludes index
`le − 1` and, on ties, keeps the latest index — and returns 1. -/
theorem c7_counterexample :
    chooseLineEnd [0, 0, 9] 0 3 9 = .ok 1 ∧
    chooseLineEndSpec [0, 0, 9] 0 3 9 = 2 ∧
    chooseLineEnd [0, 0, 9] 0 3 9 ≠ .ok (chooseLineEndSpec [0, 0, 9] 0 3 9) :=
  ⟨by decide, by decide, by decide⟩

/-- C7 (amended): when the loop closes a chunk at line cursor `le`, the
chosen split line is the index in `[min(ls, (le − ⌊log2 W⌋) mod 2^64),
le − 2]` maximizing `term`, ties broken by the LATEST index in that
range; the lower bound uses `min` (not `max`) and the `usize`
subtraction `le − ⌊log2 W⌋` wraps when `le < ⌊log2 W⌋`, after which the
`min` clamps the bound to `ls`. -/
theorem c7_split_line_latest_argmax (term : List Int) (ls le lookbehind : Nat)
    (hlt : min ls (usub le lookbehind) < usub le 1)
    (hle : usub le 1 ≤ term.length)
    (hnn : ∀ x ∈ term, 0 ≤ x) :
    ∃ r, chooseLineEnd term ls le lookbehind = .ok r ∧
      min ls (usub le lookbehind) ≤ r ∧ r < usub le 1 ∧
      (∀ j, min ls (usub le lookbehind) ≤ j → j < usub le 1 →
        term.getD j 0 ≤ term.getD r 0) ∧
      (∀ j, min ls (usub le lookbehind) ≤ j → j < usub le 1 →
        term.getD j 0 = term.getD r 0 → j ≤ r) := by
  have hslen : ((term.take (usub le 1)).drop (min ls (usub le lookbehind))).length =
      usub le 1 - min ls (usub le lookbehind) := by
    simp only [List.length_drop, List.length_take]
    omega
  have hsne : (term.take (usub le 1)).drop (min ls (usub le lookbehind)) ≠ [] := by
    intro h0
    rw [h0] at hslen
    simp at hslen
    omega
  have hget : ∀ t, t < usub le 1 - min ls (usub le lookbehind) →
      ((term.take (usub le 1)).drop (min ls (usub le lookbehind))).getD t 0 =
        term.getD (min ls (usub le lookbehind) + t) 0 := by
    intro t ht
    rw [List.getD_eq_getD_get?, List.getD_eq_getD_get?, List.get?_drop,
      List.get?_take (by omega)]
  have hnnS : ∀ x ∈ (term.take (usub le 1)).drop (min ls (usub le lookbehind)), 0 ≤ x :=
    fun x hx => hnn x (List.mem_of_mem_take (List.mem_of_mem_drop hx))
  obtain ⟨f1, f2, f3, f4⟩ := foldMax_spec _ hsne hnnS
  rw [hslen] at f1
  refine ⟨(foldMax ((term.take (usub le 1)).drop (min ls (usub le lookbehind)))).1 +
    min ls (usub le lookbehind), ?_, by omega, by omega, ?_, ?_⟩
  · unfold chooseLineEnd
    rw [if_pos ⟨le_of_lt hlt, hle⟩]
  · intro j hj1 hj2
    have ht : j - min ls (usub le lookbehind) <
        usub le 1 - min ls (usub le lookbehind) := by omega
    have hjv := hget _ ht
    have hrv := hget _ f1
    rw [show min ls (usub le lookbehind) + (j - min ls (usub le lookbehind)) = j
      from by omega] at hjv
    rw [Nat.add_comm]
    rw [← hrv, ← hjv, f2]
    exact f3 _ (by rw [hslen]; omega)
  · intro j hj1 hj2 hv
    have ht : j - min ls (usub le lookbehind) <
        usub le 1 - min ls (usub le lookbehind) := by omega
    have hjv := hget _ ht
    have hrv := hget _ f1
    rw [show min ls (usub le lookbehind) + (j - min ls (usub le lookbehind)) = j
      from by omega] at hjv
    have := f4 (j - min ls (usub le lookbehind)) (by rw [hslen]; omega)
      (by rw [hjv]; rw [Nat.add_comm] at hv; rw [← hrv, f2] at hv; exact hv)
    omega

/-- Witness for C7 (amended) at the counterexample's concrete input. -/
theorem c7_witness :
    ∃ r, chooseLineEnd [0, 0, 9] 0 3 9 = .ok r ∧
      min 0 (usub 3 9) ≤ r ∧ r < usub 3 1 ∧
      (∀ j, min 0 (usub 3 9) ≤ j → j < usub 3 1 →
        List.getD ([0, 0, 9] : List Int) j 0 ≤ List.getD ([0, 0, 9] : List Int) r 0) ∧
      (∀ j, min 0 (usub 3 9) ≤ j → j < usub 3 1 →
        List.getD ([0, 0, 9] : List Int) j 0 = List.getD ([0, 0, 9] : List Int) r 0 →
          j ≤ r) :=
  c7_split_line_latest_argmax [0, 0, 9] 0 3 9 (by decide) (by decide)
    (by decide)

/-- The newline scan of chunker.rs lines 67–83, characterized: when
every newline byte resolves to a token, the resolved indices are
monotone and below `2^64`, the scan fails with `"line too long"` exactly
when some adjacent pair of newline token indices differ by more than
`inner`. -/
theorem buildNl_err_iff (inner : Nat) (ctt : Nat → Option Nat) :
    ∀ (rest : List Nat) (i lastTok : Nat) (acc : List Nat),
      (∀ j, j < rest.length → rest.getD j 0 = 10 → (ctt (i + j)).isSome) →
      List.Chain' (· ≤ ·) (lastTok :: resolveFrom ctt rest i) →
      (∀ t ∈ lastTok :: resolveFrom ctt rest i, t < USIZE) →
      (buildNl inner ctt rest i lastTok acc = .err "line too long" ↔
        ∃ k, k + 1 < (lastTok :: resolveFrom ctt rest i).length ∧
          (lastTok :: resolveFrom ctt rest i).getD (k + 1) 0 -
            (lastTok :: resolveFrom ctt rest i).getD k 0 > inner) := by
  intro rest
  induction rest with
  | nil =>
    intro i lastTok acc htot hch hbd
    rw [buildNl]
    simp [resolveFrom]
  | cons b r ih =>
    intro i lastTok acc htot hch hbd
    rw [buildNl]
    by_cases hb : b = 10
    · rw [if_pos hb]
      have hsome : (ctt i).isSome := htot 0 (by simp) (by simpa using hb)
      obtain ⟨t, ht⟩ := Option.isSome_iff_exists.mp hsome
      have hres : resolveFrom ctt (b :: r) i = t :: resolveFrom ctt r (i + 1) := by
        rw [resolveFrom, if_pos hb, ht]
        rfl
      rw [hres] at hch hbd ⊢
      simp only [ht]
      have hle : lastTok ≤ t := (List.chain'_cons.mp hch).1
      have htU : t < USIZE := hbd t (by simp)
      have hlastU : lastTok < USIZE := hbd lastTok (by simp)
      have husub : usub t lastTok = t - lastTok := usub_of_le hle htU hlastU
      by_cases hguard : usub t lastTok > inner
      · rw [if_pos hguard]
        constructor
        · intro _
          refine ⟨0, by simp, ?_⟩
          simpa [husub] using hguard
        · intro _
          rfl
      · rw [if_neg hguard]
        have htot2 : ∀ j, j < r.length → r.getD j 0 = 10 → (ctt (i + 1 + j)).isSome := by
          intro j hj hv
          have := htot (j + 1) (by simpa using hj) (by simpa using hv)
          have harith : i + (j + 1) = i + 1 + j := by omega
          rwa [harith] at this
        have hch2 : List.Chain' (· ≤ ·) (t :: resolveFrom ctt r (i + 1)) :=
          (List.chain'_cons.mp hch).2
        have hbd2 : ∀ x ∈ t :: resolveFrom ctt r (i + 1), x < USIZE := by
          intro x hx
          exact hbd x (List.mem_cons_of_mem _ hx)
        rw [ih (i + 1) t (acc ++ [t]) htot2 hch2 hbd2]
        rw [husub] at hguard
        constructor
        · rintro ⟨k, hk, hkv⟩
          refine ⟨k + 1, by simpa using hk, ?_⟩
          simpa using hkv
        · rintro ⟨k, hk, hkv⟩
          match k with
          | 0 =>
            exfalso
            simp at hkv
            omega
          | k + 1 =>
            refine ⟨k, by simpa using hk, ?_⟩
            simpa using hkv
    · rw [if_neg hb]
      have hres : resolveFrom ctt (b :: r) i = resolveFrom ctt r (i + 1) := by
        rw [resolveFrom, if_neg hb]
      rw [hres] at hch hbd ⊢
      have htot2 : ∀ j, j < r.length → r.getD j 0 = 10 → (ctt (i + 1 + j)).isSome := by
        intro j hj hv
        have := htot (j + 1) (by simpa using hj) (by simpa using hv)
        have harith : i + (j + 1) = i + 1 + j := by omega
        rwa [harith] at this
      exact ih (i + 1) lastTok acc htot2 hch hbd

/-- C8: the code at the failing input — the line-length guard of
chunker.rs lines 67–83 (embedded in isolation as `buildNl`) would fail
with `"line too long"` on this buffer, whose single newline resolves to
token 400, further than `inner_chunk_size = W − 2·O − F = 382` from the
sentinel; but the shipped chunker never reaches the newline scan: the
general path diverges in the terminal-histogram traversal first, so
`chunk_node` never produces the `"line too long"` failure the claim
describes (and a fortiori returns no partial chunk list). -/
theorem c8_line_guard_unreachable :
    buildNl (ChunkerT.inner_chunk_size ⟨.codeBert, fun _ => .ok encGuard⟩)
      encGuard.charToToken srcGuard 0 0 [0] = .err "line too long" ∧
    chunkNode ⟨.codeBert, fun _ => .ok encGuard⟩ srcGuard (leafNode 510) =
      .diverges :=
  ⟨by decide, by decide⟩

/-- Membership in the structural-index set. -/
theorem mem_ignoresOf_iff (captures : List String) (i : Nat) :
    i ∈ ignoresOf captures ↔
      ∃ name, captures.get? i = some name ∧ startsWithUnderscore name = true := by
  unfold ignoresOf
  simp only [List.mem_map, List.mem_filter]
  constructor
  · rintro ⟨⟨j, name⟩, ⟨hmem, hpred⟩, rfl⟩
    refine ⟨name, ?_, hpred⟩
    have := List.mk_mem_enum_iff_getElem?.mp hmem
    simpa [List.get?_eq_getElem?] using this
  · rintro ⟨name, hget, hpred⟩
    refine ⟨(i, name), ⟨List.mk_mem_enum_iff_getElem?.mpr ?_, hpred⟩, rfl⟩
    simpa [List.get?_eq_getElem?] using hget

/-- When every capture label is structural, the structural-index set has
one entry per label. -/
theorem ignoresOf_length_all (captures : List String)
    (hall : ∀ name ∈ captures, startsWithUnderscore name = true) :
    (ignoresOf captures).length = captures.length := by
  unfold ignoresOf
  rw [List.filter_eq_self.mpr, List.length_map, List.enum_length]
  intro p hp
  have hmem := List.mem_enum_iff_getElem?.mp hp
  obtain ⟨hlt, heq⟩ := List.getElem?_eq_some.mp hmem
  exact hall p.2 (heq ▸ List.getElem_mem hlt)

/-- Characterization of the capture loop when every capture is benign:
the call returns normally, the diagnostic stream receives exactly the
warnings of the failing captures, in capture order, and the match list
is exactly the records of the succeeding reported captures. -/
theorem extractLoop_spec (ex : ExtractorT) (path : Option String) (pathStr : String)
    (source : List Nat) :
    ∀ (cs : List CaptureT) (ws : List String) (ms : List ExtractedMatchR),
      (∀ cap ∈ cs, capBenign ex.captures ex.model ex.encodeFn source cap) →
      extractLoop ex path pathStr source cs ws ms =
        ⟨ws ++ cs.filterMap (capWarning ex.captures ex.model ex.encodeFn pathStr source),
         .finished (mkFileOpt path ex.languageName
           (ms ++ cs.filterMap (capMatch ex.captures ex.model ex.encodeFn source)))⟩ := by
  intro cs
  induction cs with
  | nil =>
    intro ws ms hben
    simp [extractLoop, mkFileOpt]
  | cons cap rest ih =>
    intro ws ms hben
    have hcap := hben cap (by simp)
    rw [extractLoop]
    by_cases hig : (ignoresOf ex.captures).contains cap.index
    · rw [if_pos hig]
      rw [ih ws ms (fun c hc => hben c (List.mem_cons_of_mem _ hc))]
      have hig2 : cap.index ∈ ignoresOf ex.captures := by simpa using hig
      have hwn : capWarning ex.captures ex.model ex.encodeFn pathStr source cap = none := by
        simp [capWarning, hig2]
      have hmn : capMatch ex.captures ex.model ex.encodeFn source cap = none := by
        simp [capMatch, hig2]
      simp [List.filterMap_cons, hwn, hmn]
    · rw [if_neg hig]
      rcases hcap with higc | ⟨hname, hsb, heb, hnp⟩
      · exact absurd higc hig
      have hig2 : cap.index ∉ ignoresOf ex.captures := by simpa using hig
      obtain ⟨name, hget⟩ := Option.isSome_iff_exists.mp hname
      have hget2 : ex.captures[cap.index]? = some name := by
        simpa [List.get?_eq_getElem?] using hget
      simp only [hget]
      rw [if_pos ⟨hsb, heb⟩]
      rcases hres : chunkNode ⟨ex.model, ex.encodeFn⟩
          (sliceBytes source cap.node.data.startByte cap.node.data.endByte)
          cap.node with ⟨chunks | e | msg⟩ | _
      · dsimp only
        refine (ih ws _ (fun c hc => hben c (List.mem_cons_of_mem _ hc))).trans ?_
        have hwn : capWarning ex.captures ex.model ex.encodeFn pathStr source cap = none := by
          simp [capWarning, hig2, hres]
        have hms : capMatch ex.captures ex.model ex.encodeFn source cap =
            some ⟨cap.node.data.kind, name,
              sliceBytes source cap.node.data.startByte cap.node.data.endByte,
              (cap.node.data.startRow, cap.node.data.startCol),
              (cap.node.data.endRow, cap.node.data.endCol), chunks⟩ := by
          simp [capMatch, hig2, hget2, hres]
        simp [List.filterMap_cons, hwn, hms]
      · dsimp only
        refine (ih _ ms (fun c hc => hben c (List.mem_cons_of_mem _ hc))).trans ?_
        have hwe : capWarning ex.captures ex.model ex.encodeFn pathStr source cap =
            some (chunkWarning pathStr e) := by
          simp [capWarning, hig2, hres]
        have hmn : capMatch ex.captures ex.model ex.encodeFn source cap = none := by
          simp [capMatch, hig2, hget2, hres]
        simp [List.filterMap_cons, hwe, hmn]
      · exfalso
        rw [hres] at hnp
        simp [RunBehavior.returnedCleanly] at hnp
      · exfalso
        rw [hres] at hnp
        simp [RunBehavior.returnedCleanly] at hnp

/-- C3 (amended): for every capture whose chunking fails with a
recoverable error (tokenizer encode failure, newline-to-token resolution
failure, line-too-long), `extract` emits one warning line naming the
file (or "stdin") and the error, drops only that capture, and continues
the file, returning normally with the match records of the remaining
captures — provided no capture panics.  A match region that is not
valid UTF-8 panics instead (see the counterexample). -/
theorem c3_chunker_errors_recovered (ex : ExtractorT) (path : Option String)
    (source : List Nat) (caps : List CaptureT)
    (hben : ∀ cap ∈ caps, capBenign ex.captures ex.model ex.encodeFn source cap) :
    extractFromText ex path source caps =
      ⟨caps.filterMap
        (capWarning ex.captures ex.model ex.encodeFn (path.getD "stdin") source),
       .finished (mkFileOpt path ex.languageName
         (caps.filterMap (capMatch ex.captures ex.model ex.encodeFn source)))⟩ := by
  unfold extractFromText
  rw [extractLoop_spec ex path (path.getD "stdin") source caps [] [] hben]
  simp

/-- C3: counterexample — a capture whose match region is the invalid
UTF-8 byte `0xFF` makes the chunker panic (`from_utf8(..).expect`), so
the whole `extract_from_text` call unwinds: no warning line is printed,
and the valid second capture of the same file is lost, contradicting the
claim that an invalid-UTF-8 match is warned about, dropped alone, and
the call returns normally. -/
theorem c3_counterexample :
    extractFromText exSample none [255, 97]
      [⟨0, .mk ⟨"string", 0, 1, 0, 0, 0, 1⟩ []⟩,
       ⟨0, .mk ⟨"identifier", 1, 2, 0, 0, 0, 2⟩ []⟩] =
      ⟨[], .panicked "invalid utf-8"⟩ := by
  decide

/-- Witness for C3 (amended) at a concrete two-capture input. -/
theorem c3_witness :
    extractFromText exSample none [97, 98] c3Caps =
      ⟨c3Caps.filterMap
        (capWarning exSample.captures exSample.model exSample.encodeFn
          ((none : Option String).getD "stdin") [97, 98]),
       .finished (mkFileOpt none exSample.languageName
         (c3Caps.filterMap
           (capMatch exSample.captures exSample.model exSample.encodeFn [97, 98])))⟩ :=
  c3_chunker_errors_recovered exSample none [97, 98] c3Caps (by decide)

/-- C10: for every pattern whose capture labels all begin with an
underscore, constructing the extractor emits exactly one warning (the
all-structural warning), and `extract` on every input returns "no
result": every reported capture index is structural, so no match record
is produced and no further diagnostics are emitted. -/
theorem c10_all_structural_no_result (languageName : String) (captures : List String)
    (model : Model) (encodeFn : List Nat → Except String Encoding)
    (path : Option String) (source : List Nat) (caps : List CaptureT)
    (hall : ∀ name ∈ captures, startsWithUnderscore name = true)
    (hidx : ∀ cap ∈ caps, cap.index < captures.length) :
    (extractorNew languageName captures model encodeFn).2.length = 1 ∧
    extractFromText (extractorNew languageName captures model encodeFn).1 path source
      caps = ⟨[], .finished none⟩ := by
  have hcontains : ∀ cap ∈ caps, cap.index ∈ ignoresOf captures := by
    intro cap hc
    have hlt := hidx cap hc
    rw [mem_ignoresOf_iff]
    exact ⟨captures.get ⟨cap.index, hlt⟩,
      by simp [List.get?_eq_getElem?, List.getElem?_eq_getElem hlt],
      hall _ (List.get_mem captures cap.index hlt)⟩
  constructor
  · unfold extractorNew
    rw [if_pos (ignoresOf_length_all captures hall).symm]
    rfl
  · have hben : ∀ cap ∈ caps, capBenign captures model encodeFn source cap := by
      intro cap hc
      left
      simpa using hcontains cap hc
    have hspec := extractLoop_spec (extractorNew languageName captures model encodeFn).1
      path (path.getD "stdin") source caps [] [] (by simpa [extractorNew] using hben)
    simp only [extractorNew] at hspec
    unfold extractFromText
    have hwarn : caps.filterMap
        (capWarning captures model encodeFn (path.getD "stdin") source) = [] := by
      rw [List.filterMap_eq_nil]
      intro cap hc
      simp [capWarning, hcontains cap hc]
    have hmatch : caps.filterMap (capMatch captures model encodeFn source) = [] := by
      rw [List.filterMap_eq_nil]
      intro cap hc
      simp [capMatch, hcontains cap hc]
    simp only [extractorNew]
    rw [hspec, hwarn, hmatch]
    simp [mkFileOpt]

/-- Witness for C10 at a concrete all-structural query. -/
theorem c10_witness :
    (extractorNew "Elm" ["_x"] .codeBert (fun _ => .ok encShort)).2.length = 1 ∧
    extractFromText (extractorNew "Elm" ["_x"] .codeBert (fun _ => .ok encShort)).1
      none [97] [⟨0, leafNode 1⟩] = ⟨[], .finished none⟩ :=
  c10_all_structural_no_result "Elm" ["_x"] .codeBert (fun _ => .ok encShort)
    none [97] [⟨0, leafNode 1⟩] (by decide) (by decide)

/-- A reported capture is processed by its label alone: index-based
structural filtering and naming agree with the label view. -/
theorem capMatch_eq_labMatch (names : List String) (model : Model)
    (encodeFn : List Nat → Except String Encoding) (source : List Nat)
    (cap : CaptureT) (h : cap.index < names.length) :
    capMatch names model encodeFn source cap =
      labMatch model encodeFn source (names.getD cap.index "", cap.node) := by
  have hname : names.get? cap.index = some (names.get ⟨cap.index, h⟩) :=
    List.get?_eq_get h
  have hgetD : names.getD cap.index "" = names.get ⟨cap.index, h⟩ := by
    simp [List.getD_eq_getD_get?, List.get?_eq_getElem?, List.getElem?_eq_getElem h,
      List.get_eq_getElem]
  by_cases hu : startsWithUnderscore (names.get ⟨cap.index, h⟩) = true
  · have hmem : cap.index ∈ ignoresOf names :=
      (mem_ignoresOf_iff names cap.index).mpr ⟨_, hname, hu⟩
    have hcon : (ignoresOf names).contains cap.index = true := by simpa using hmem
    unfold capMatch labMatch
    rw [if_pos hcon, if_pos (by rw [hgetD]; exact hu)]
  · have hmem : cap.index ∉ ignoresOf names := by
      intro hmem
      obtain ⟨name2, hn2, hu2⟩ := (mem_ignoresOf_iff names cap.index).mp hmem
      rw [hname] at hn2
      cases hn2
      exact hu hu2
    have hcon : ¬ (ignoresOf names).contains cap.index = true := by simpa using hmem
    unfold capMatch labMatch
    rw [if_neg hcon, if_neg (by rw [hgetD]; exact hu)]
    simp only [hname]
    rcases hres : chunkNode ⟨model, encodeFn⟩
        (sliceBytes source cap.node.data.startByte cap.node.data.endByte)
        cap.node with ⟨chunks | e | msg⟩ | _ <;>
      simp [hgetD, List.getD_eq_getD_get?, List.get?_eq_getElem?,
        List.getElem?_eq_getElem h, List.get_eq_getElem]

/-- Index-based capture processing equals label-based processing of the
labeled capture stream. -/
theorem filterMap_capMatch_eq (names : List String) (model : Model)
    (encodeFn : List Nat → Except String Encoding) (source : List Nat)
    (caps : List CaptureT) (hidx : ∀ cap ∈ caps, cap.index < names.length) :
    caps.filterMap (capMatch names model encodeFn source) =
      (caps.map fun cap => (names.getD cap.index "", cap.node)).filterMap
        (labMatch model encodeFn source) := by
  rw [List.filterMap_map]
  exact List.filterMap_congr fun cap hc =>
    capMatch_eq_labMatch names model encodeFn source cap (hidx cap hc)

/-- The tuples of a normally assembled file record. -/
theorem resultTuples_finished (ws : List String) (p : Option String) (lang : String)
    (ms : List ExtractedMatchR) :
    resultTuples ⟨ws, .finished (mkFileOpt p lang ms)⟩ = ms.map matchTuple := by
  by_cases h : ms.isEmpty
  · have hnil : ms = [] := by simpa using h
    subst hnil
    simp [resultTuples, mkFileOpt]
  · simp [resultTuples, mkFileOpt, h]

/-- The match tuples one compiled query text produces on a parsed file,
expressed through the label view of its capture stream. -/
theorem runTuples (eng : QueryEngine) (languageName : String) (model : Model)
    (encodeFn : List Nat → Except String Encoding) (q : String)
    (path : Option String) (source : List Nat) (tree : RsNode)
    (hq : (eng.parseNames q).isSome)
    (hidx : ∀ cap ∈ eng.runQuery q tree source,
      cap.index < ((eng.parseNames q).getD []).length)
    (hben : ∀ cap ∈ eng.runQuery q tree source,
      nodeBenign model encodeFn source cap.node) :
    resultTuples (extractFromText (extractorOfQuery eng languageName model encodeFn q)
        path source (eng.runQuery q tree source)) =
      ((labeledCaps eng q tree source).filterMap
        (labMatch model encodeFn source)).map matchTuple := by
  have hben2 : ∀ cap ∈ eng.runQuery q tree source,
      capBenign ((eng.parseNames q).getD []) model encodeFn source cap := by
    intro cap hc
    right
    refine ⟨?_, (hben cap hc).1, (hben cap hc).2.1, (hben cap hc).2.2⟩
    rw [List.get?_eq_get (hidx cap hc)]
    rfl
  have hspec := extractLoop_spec (extractorOfQuery eng languageName model encodeFn q)
    path (path.getD "stdin") source (eng.runQuery q tree source) [] []
    (by simpa [extractorOfQuery, extractorNew] using hben2)
  unfold extractFromText
  rw [hspec]
  simp only [extractorOfQuery, extractorNew]
  rw [resultTuples_finished]
  rw [List.nil_append,
    filterMap_capMatch_eq ((eng.parseNames q).getD []) model encodeFn source
      (eng.runQuery q tree source) hidx]
  rfl

/-- C9: fusion equivalence — running the extractor compiled from the
concatenation of the (possibly `@query`-augmented) pattern texts of one
language produces exactly the concatenation of the per-pattern match
tuples, given the engine's juxtaposition-as-alternation law for the
labeled capture streams (and validity of capture indices, plus
panic-freedom of per-capture chunking); and a validated pattern with no
declared captures gets the literal label `@query` appended before
fusion. -/
theorem c9_fusion_equivalence (eng : QueryEngine) (languageName : String)
    (model : Model) (encodeFn : List Nat → Except String Encoding)
    (qs : List String) (fusedNames : List String)
    (path : Option String) (source : List Nat) (tree : RsNode)
    (h1 : eng.parseNames (String.join qs) = some fusedNames)
    (h2 : ∀ q ∈ qs, (eng.parseNames q).isSome)
    (h3 : labeledCaps eng (String.join qs) tree source =
      (qs.map fun q => labeledCaps eng q tree source).flatten)
    (h4 : ∀ cap ∈ eng.runQuery (String.join qs) tree source,
      cap.index < fusedNames.length)
    (h5 : ∀ q ∈ qs, ∀ cap ∈ eng.runQuery q tree source,
      cap.index < ((eng.parseNames q).getD []).length)
    (h6 : ∀ cap ∈ eng.runQuery (String.join qs) tree source,
      nodeBenign model encodeFn source cap.node)
    (h7 : ∀ q ∈ qs, ∀ cap ∈ eng.runQuery q tree source,
      nodeBenign model encodeFn source cap.node) :
    resultTuples (extractFromText
        (extractorOfQuery eng languageName model encodeFn (String.join qs))
        path source (eng.runQuery (String.join qs) tree source)) =
      (qs.map fun q => resultTuples (extractFromText
        (extractorOfQuery eng languageName model encodeFn q) path source
        (eng.runQuery q tree source))).flatten ∧
    (∀ raw names, eng.parseNames raw = some names → names = [] →
      augmentQuery eng raw = some (raw ++ "@query")) := by
  constructor
  · rw [runTuples eng languageName model encodeFn (String.join qs) path source tree
      (by simp [h1]) (by intro cap hc; rw [h1]; exact h4 cap hc) h6]
    rw [h3]
    rw [List.filterMap_flatten, List.map_flatten]
    rw [List.map_map, List.map_map]
    congr 1
    apply List.map_congr_left
    intro q hq
    rw [runTuples eng languageName model encodeFn q path source tree
      (h2 q hq) (h5 q hq) (h7 q hq)]
    rfl
  · intro raw names hp hempty
    simp [augmentQuery, hp, hempty]

/-- Witness for C9 at a concrete two-pattern input under the pair
engine: each pattern captures a node, the fused run reports both match
tuples, and the captureless pattern `(c)` really receives the `@query`
label. -/
theorem c9_witness :
    (resultTuples (extractFromText
        (extractorOfQuery engPair "Elm" .codeBert (fun _ => .ok encShort)
          (String.join ["(a)@x", "(b)@x"]))
        none [97, 98]
        (engPair.runQuery (String.join ["(a)@x", "(b)@x"]) (leafNode 2) [97, 98])) =
      (["(a)@x", "(b)@x"].map fun q => resultTuples (extractFromText
        (extractorOfQuery engPair "Elm" .codeBert (fun _ => .ok encShort) q)
        none [97, 98] (engPair.runQuery q (leafNode 2) [97, 98]))).flatten ∧
    (∀ raw names, engPair.parseNames raw = some names → names = [] →
      augmentQuery engPair raw = some (raw ++ "@query"))) ∧
    augmentQuery engPair "(c)" = some ("(c)" ++ "@query") ∧
    resultTuples (extractFromText
        (extractorOfQuery engPair "Elm" .codeBert (fun _ => .ok encShort)
          (String.join ["(a)@x", "(b)@x"]))
        none [97, 98]
        (engPair.runQuery (String.join ["(a)@x", "(b)@x"]) (leafNode 2) [97, 98])) ≠
      [] :=
  have h := c9_fusion_equivalence engPair "Elm" .codeBert (fun _ => .ok encShort)
    ["(a)@x", "(b)@x"] ["x"] none [97, 98] (leafNode 2)
    (by decide)
    (by decide)
    (by rfl)
    (by
      intro cap hc
      have hc' : cap ∈ [(⟨0, nodeA⟩ : CaptureT), ⟨0, nodeB⟩] := hc
      simp only [List.mem_cons, List.not_mem_nil, or_false] at hc'
      rcases hc' with rfl | rfl <;> decide)
    (by
      intro q hq cap hc
      simp only [List.mem_cons, List.not_mem_nil, or_false] at hq
      rcases hq with rfl | rfl
      · have hc' : cap ∈ [(⟨0, nodeA⟩ : CaptureT)] := hc
        simp only [List.mem_cons, List.not_mem_nil, or_false] at hc'
        subst hc'; decide
      · have hc' : cap ∈ [(⟨0, nodeB⟩ : CaptureT)] := hc
        simp only [List.mem_cons, List.not_mem_nil, or_false] at hc'
        subst hc'; decide)
    (by
      intro cap hc
      have hc' : cap ∈ [(⟨0, nodeA⟩ : CaptureT), ⟨0, nodeB⟩] := hc
      simp only [List.mem_cons, List.not_mem_nil, or_false] at hc'
      rcases hc' with rfl | rfl <;> exact ⟨by decide, by decide, by decide⟩)
    (by
      intro q hq cap hc
      simp only [List.mem_cons, List.not_mem_nil, or_false] at hq
      rcases hq with rfl | rfl
      · have hc' : cap ∈ [(⟨0, nodeA⟩ : CaptureT)] := hc
        simp only [List.mem_cons, List.not_mem_nil, or_false] at hc'
        subst hc'; exact ⟨by decide, by decide, by decide⟩
      · have hc' : cap ∈ [(⟨0, nodeB⟩ : CaptureT)] := hc
        simp only [List.mem_cons, List.not_mem_nil, or_false] at hc'
        subst hc'; exact ⟨by decide, by decide, by decide⟩)
  ⟨h, h.2 "(c)" [] (by decide) rfl, by rw [h.1]; decide⟩

end Crossgrep
